import Mathlib

/-!
Verification of `src/plugins/functions/status.py` of SCP-079-STATUS.

The module is a report-template renderer: each `get_*` function checks
whether its placeholder token occurs in the input text, fetches one OS
metric, formats it, and replaces every occurrence of the token
(Python `str.replace` semantics: leftmost, non-overlapping).  Any
exception during fetching or formatting is caught and the original
input is returned.  `get_status` chains all field functions in a fixed
order.  `get_size` converts a byte count to a human-readable string.

Strings are modelled as `List Char`.  OS metric reads (psutil, socket,
distro, the glovar configuration) are the environment: each field of
`Env` holds `some` formatted value when the fetch-and-format step
succeeds and `none` when it raises.  The float arithmetic of
`get_size` is modelled exactly: floats are the dyadic rationals they
denote, the one inexact operation — the first division, Python
`int / 1024` — is rounded to 53 significant bits with ties to even
(`fl53`), the later divisions by 1024 only shift the binary exponent
and are exact, and `f"{x:.2f}"` rounds the exact value to hundredths
with ties to even (`roundHE`).
-/

set_option maxHeartbeats 1000000

namespace Status

abbrev Str := List Char

/-- Python `tok in s`: `tok` occurs as a contiguous substring of `s`. -/
def isSubstr (tok : Str) : Str → Bool
  | [] => tok.isEmpty
  | c :: cs => tok.isPrefixOf (c :: cs) || isSubstr tok cs

/-- Worker for `replaceAll`.  The counter skips the characters of a
token occurrence that has just been replaced, keeping the recursion
structural. -/
def replaceAllGo (tok rep : Str) : Str → Nat → Str
  | [], _ => []
  | c :: cs, 0 =>
      if tok ≠ [] ∧ tok.isPrefixOf (c :: cs) then
        rep ++ replaceAllGo tok rep cs (tok.length - 1)
      else
        c :: replaceAllGo tok rep cs 0
  | _ :: cs, k + 1 => replaceAllGo tok rep cs k

/-- Python `s.replace(tok, rep)` for a nonempty `tok`: replace every
leftmost non-overlapping occurrence of `tok` in `s` by `rep`. -/
def replaceAll (tok rep s : Str) : Str := replaceAllGo tok rep s 0

/-- Prepend a character to the first part of a part list. -/
def consHead (c : Char) : List Str → List Str
  | [] => [[c]]
  | p :: ps => (c :: p) :: ps

/-- Worker for `splitOn`, with the same skip counter as `replaceAllGo`. -/
def splitOnGo (tok : Str) : Str → Nat → List Str
  | [], _ => [[]]
  | c :: cs, 0 =>
      if tok ≠ [] ∧ tok.isPrefixOf (c :: cs) then
        [] :: splitOnGo tok cs (tok.length - 1)
      else
        consHead c (splitOnGo tok cs 0)
  | _ :: cs, k + 1 => splitOnGo tok cs k

/-- Python `s.split(tok)` for a nonempty `tok`: the segments of `s`
between the leftmost non-overlapping occurrences of `tok`. -/
def splitOn (tok s : Str) : List Str := splitOnGo tok s 0

/-- Join a part list, placing `sep` between consecutive parts. -/
def joinWith (sep : Str) : List Str → Str
  | [] => []
  | [p] => p
  | p :: q :: ps => p ++ sep ++ joinWith sep (q :: ps)

/-! ### The size formatter `get_size`

`get_size` receives an integer byte count from psutil and divides it
by 1024 with Python float semantics: the first division `int / 1024`
rounds the exact quotient to the nearest binary64 float (53
significant bits, ties to even); every later division only shifts the
float's binary exponent down by 10 and is exact at the magnitudes the
loop visits (the value stays at least 1 until the loop stops).
Floats are modelled as the exact dyadic rationals they denote; the
binary64 exponent range is not modelled, which is faithful for byte
counts below `2 ^ 1024` (far above any machine byte count — above
roughly `2 ^ 1034` CPython raises OverflowError converting the
quotient, the `except` catches it, and `get_size` returns its initial
empty string).  `f"{x:.2f}"` rounds the exact value of `x` to
hundredths, ties to even. -/

/-- The unit list `["", "K", "M", "G", "T", "P"]` iterated by `get_size`. -/
def sizeUnits : List String := ["", "K", "M", "G", "T", "P"]

/-- The units left after the loop's first (integer) iteration. -/
def tailUnits : List String := ["K", "M", "G", "T", "P"]

/-- Round to the nearest integer, ties to even: the rounding used both
by binary64 arithmetic and by CPython's float-to-decimal formatting. -/
def roundHE (x : ℚ) : ℤ :=
  if x - ⌊x⌋ < 1 / 2 then ⌊x⌋
  else if 1 / 2 < x - ⌊x⌋ then ⌊x⌋ + 1
  else if ⌊x⌋ % 2 = 0 then ⌊x⌋ else ⌊x⌋ + 1

/-- Round a positive rational to the nearest binary64 float (53
significant bits, ties to even; exponent range not modelled): the
value of Python `b / 1024` for an int `b`.  Nonpositive input maps to
0 (`get_size` only divides counts that are at least 1024). -/
def fl53 (x : ℚ) : ℚ :=
  if x ≤ 0 then 0
  else (roundHE (x / 2 ^ (Int.log 2 x - 52)) : ℚ) * 2 ^ (Int.log 2 x - 52)

/-- The `for unit in [...]` loop of `get_size` on an already-converted
float value: break with the current unit as soon as `b < 1024`,
otherwise divide by 1024 (exact for these floats) and move to the next
unit; when the list is exhausted the last unit is kept and `b` has
been divided once per unit. -/
def sizeLoop (b : ℚ) : List String → ℚ × String
  | [] => (b, "")
  | [u] => if b < 1024 then (b, u) else (b / 1024, u)
  | u :: v :: rest => if b < 1024 then (b, u) else sizeLoop (b / 1024) (v :: rest)

/-- The (value, unit) pair the source's loop leaves for the integer
byte count `b`: either `b` is below 1024 and is never divided (the
first comparison is exact integer arithmetic), or the first division
rounds once to a float and the remaining divisions are exact. -/
def floatVal (b : ℤ) : ℚ × String :=
  if b < 1024 then ((b : ℚ), "")
  else sizeLoop (fl53 ((b : ℚ) / 1024)) tailUnits

/-- The displayed 2-decimal value of `q`, times 100: Python
`f"{q:.2f}"` rounds the exact value to hundredths, ties to even. -/
def cent (q : ℚ) : ℤ := roundHE (q * 100)

/-- Render `n` hundredths as a 2-decimal numeral string. -/
def fmtCent (n : ℤ) : String :=
  toString (n / 100) ++ "." ++
    (if n % 100 < 10 then ("0") ++ toString (n % 100) else toString (n % 100))

/-- Python `f"{b:.2f}"` for nonnegative `b`. -/
def format2 (q : ℚ) : String := fmtCent (cent q)

/-- `get_size(b, suffix)` on an integer byte count: run the loop and
render `f"{b:.2f} {unit}{suffix}"`. -/
def get_size (b : ℤ) (suffix : String) : String :=
  format2 (floatVal b).1 ++ " " ++ (floatVal b).2 ++ suffix

/-- The value shown after `d` of the source's divisions: the count
itself for `d = 0`, otherwise the correctly rounded first quotient
divided exactly `d - 1` more times. -/
def scaledVal (b : ℤ) (d : ℕ) : ℚ :=
  if d = 0 then (b : ℚ) else fl53 ((b : ℚ) / 1024) / 1024 ^ (d - 1)

/-- The unit prefix selected for band index `k` (`sizeUnits[k]`). -/
def unitOfIdx (k : ℕ) : String := List.getD sizeUnits k ("")

/-- The byte quantity a unit prefix stands for. -/
def unitFactor : String → ℚ
  | "K" => 1024
  | "M" => 1024 ^ 2
  | "G" => 1024 ^ 3
  | "T" => 1024 ^ 4
  | "P" => 1024 ^ 5
  | _ => 1

/-- The true byte quantity denoted by the value-and-unit combination
that `get_size b` prints: the displayed 2-decimal value times the
byte quantity of the displayed unit. -/
def sizeDenote (b : ℤ) : ℚ :=
  ((cent (floatVal b).1 : ℚ) / 100) * unitFactor (floatVal b).2

/-! ### The field substitution functions and the orchestrator

Each Python field function reads OS metrics (psutil, socket, distro)
and configuration (`glovar`, `lang`); those externals form the
environment below.  A field of `Env` is `some v` when the fetch and
formatting of that metric succeed with formatted text `v`, and `none`
when any exception is raised inside the `try` block. -/

/-- Modelled from the spec: the text-styling helper `code` from the
missing `plugins/functions/etc.py`.  The spec's per-core line template
renders the percent value as plain text (`<percent>%`), so `code` is
the identity on its argument. -/
def codeFmt (s : Str) : Str := s

structure Env where
  /-- `glovar.report`, the template the orchestrator starts from. -/
  report : Str
  interval : Option Str
  last : Option Str
  dist : Option Str
  kernel : Option Str
  hostname : Option Str
  up_time : Option Str
  cpu_count_physical : Option Str
  cpu_count_logical : Option Str
  freq_max : Option Str
  freq_min : Option Str
  freq_current : Option Str
  cpu_percent : Option Str
  /-- `cpu_percent(percpu=True, interval=1)`: the formatted per-core
  percent strings, or `none` when sampling raises. -/
  cpu_percent_per : Option (List Str)
  /-- `lang('core')`, the localized core label. -/
  core : Str
  /-- `lang('colon')`, the localized colon glyph. -/
  colon : Str
  memory_total : Option Str
  memory_available : Option Str
  memory_used : Option Str
  memory_percent : Option Str

/-- The uniform body shared by every field function of `status.py`:
return the input unchanged when the token is absent; otherwise replace
every occurrence of the token by the fetched-and-formatted value, or
return the original input when fetching or formatting raised. -/
def substField (tok : Str) (fetch : Option Str) (text : Str) : Str :=
  if isSubstr tok text = false then text
  else
    match fetch with
    | none => text
    | some status => replaceAll tok status text

def get_interval (env : Env) (text : Str) : Str :=
  substField ("$interval$".data) env.interval text

def get_last (env : Env) (text : Str) : Str :=
  substField ("$last$".data) env.last text

def get_dist (env : Env) (text : Str) : Str :=
  substField ("$dist$".data) env.dist text

def get_kernel (env : Env) (text : Str) : Str :=
  substField ("$kernel$".data) env.kernel text

def get_hostname (env : Env) (text : Str) : Str :=
  substField ("$hostname$".data) env.hostname text

def get_up_time (env : Env) (text : Str) : Str :=
  substField ("$up_time$".data) env.up_time text

def get_cpu_count_physical (env : Env) (text : Str) : Str :=
  substField ("$cpu_count_physical$".data) env.cpu_count_physical text

def get_cpu_count_logical (env : Env) (text : Str) : Str :=
  substField ("$cpu_count_logical$".data) env.cpu_count_logical text

def get_cpu_freq_max (env : Env) (text : Str) : Str :=
  substField ("$freq_max$".data) env.freq_max text

def get_cpu_freq_min (env : Env) (text : Str) : Str :=
  substField ("$freq_min$".data) env.freq_min text

def get_cpu_freq_current (env : Env) (text : Str) : Str :=
  substField ("$freq_current$".data) env.freq_current text

def get_cpu_usage_total (env : Env) (text : Str) : Str :=
  substField ("$cpu_percent$".data) env.cpu_percent text

/-- One line of the per-core block:
`"\t" * 4 + f"{lang('core')}\t{i + 1}{lang('colon')}{code(f'{percent}%')}"`. -/
def coreLine (env : Env) (i : ℕ) (p : Str) : Str :=
  ['\t', '\t', '\t', '\t'] ++ env.core ++ ['\t'] ++ (Nat.repr (i + 1)).data
    ++ env.colon ++ codeFmt (p ++ ['%'])

/-- The `status` accumulation of `get_cpu_usage_per`: one line with a
trailing newline per enumerated core, then `status = status[:-1]`
when `status` is nonempty. -/
def perCoreStatus (env : Env) (ps : List Str) : Str :=
  let status := (ps.enum.map (fun ip => coreLine env ip.1 ip.2 ++ ['\n'])).flatten
  if status = [] then status else status.dropLast

def get_cpu_usage_per (env : Env) (text : Str) : Str :=
  substField ("$cpu_percent_per$".data) (env.cpu_percent_per.map (perCoreStatus env)) text

def get_mem_total (env : Env) (text : Str) : Str :=
  substField ("$memory_total$".data) env.memory_total text

def get_mem_available (env : Env) (text : Str) : Str :=
  substField ("$memory_available$".data) env.memory_available text

def get_mem_used (env : Env) (text : Str) : Str :=
  substField ("$memory_used$".data) env.memory_used text

def get_mem_percent (env : Env) (text : Str) : Str :=
  substField ("$memory_percent$".data) env.memory_percent text

/-- `get_status`: apply every field function to `glovar.report` in the
source's fixed order.  (The function's own `try` never fires: each
field function already catches its errors, so the chain is total.) -/
def get_status (env : Env) : Str :=
  get_mem_percent env (get_mem_used env (get_mem_available env (get_mem_total env
    (get_cpu_usage_per env (get_cpu_usage_total env (get_cpu_freq_current env
      (get_cpu_freq_min env (get_cpu_freq_max env (get_cpu_count_logical env
        (get_cpu_count_physical env (get_up_time env (get_hostname env
          (get_kernel env (get_dist env (get_last env
            (get_interval env env.report))))))))))))))))

/-- The token and fetched value of each field function, in the order
`get_status` applies them. -/
def fieldSpecs (env : Env) : List (Str × Option Str) :=
  [("$interval$".data, env.interval),
   ("$last$".data, env.last),
   ("$dist$".data, env.dist),
   ("$kernel$".data, env.kernel),
   ("$hostname$".data, env.hostname),
   ("$up_time$".data, env.up_time),
   ("$cpu_count_physical$".data, env.cpu_count_physical),
   ("$cpu_count_logical$".data, env.cpu_count_logical),
   ("$freq_max$".data, env.freq_max),
   ("$freq_min$".data, env.freq_min),
   ("$freq_current$".data, env.freq_current),
   ("$cpu_percent$".data, env.cpu_percent),
   ("$cpu_percent_per$".data, env.cpu_percent_per.map (perCoreStatus env)),
   ("$memory_total$".data, env.memory_total),
   ("$memory_available$".data, env.memory_available),
   ("$memory_used$".data, env.memory_used),
   ("$memory_percent$".data, env.memory_percent)]

/-- The closed set of recognized placeholder tokens. -/
def tokens : List Str :=
  ["$interval$".data, "$last$".data, "$dist$".data, "$kernel$".data,
   "$hostname$".data, "$up_time$".data, "$cpu_count_physical$".data,
   "$cpu_count_logical$".data, "$freq_max$".data, "$freq_min$".data,
   "$freq_current$".data, "$cpu_percent$".data, "$cpu_percent_per$".data,
   "$memory_total$".data, "$memory_available$".data, "$memory_used$".data,
   "$memory_percent$".data]

/-- An environment in which every metric fetch fails. -/
def envNone : Env :=
  { report := [], interval := none, last := none, dist := none,
    kernel := none, hostname := none, up_time := none,
    cpu_count_physical := none, cpu_count_logical := none,
    freq_max := none, freq_min := none, freq_current := none,
    cpu_percent := none, cpu_percent_per := none, core := [], colon := [],
    memory_total := none, memory_available := none, memory_used := none,
    memory_percent := none }

/-- A template with no recognized token. -/
def envPlain : Env := { envNone with report := "CPU status: fine.".data }

/-- The per-core sample succeeded but reported an empty core list. -/
def envEmptyCores : Env := { envNone with cpu_percent_per := some [] }

/-- One core at 10.0 percent, with concrete localization strings. -/
def envOneCore : Env :=
  { envNone with
    cpu_percent_per := some ["10.0".data],
    core := "Core".data,
    colon := ": ".data }

/-- A hostname fetch whose value itself contains the placeholder. -/
def envHost : Env := { envNone with hostname := some "x$hostname$y".data }

/-! ### Lemmas: prefixes, `replaceAll`, `splitOn` -/

theorem isPrefixOf_append_drop : ∀ (t s : Str), t.isPrefixOf s = true →
    t ++ s.drop t.length = s
  | [], s, _ => by simp
  | a :: t, [], h => by simp [List.isPrefixOf] at h
  | a :: t, b :: s, h => by
      simp only [List.isPrefixOf, Bool.and_eq_true, beq_iff_eq] at h
      obtain ⟨h1, h2⟩ := h
      subst h1
      simpa using isPrefixOf_append_drop t s h2

theorem isPrefixOf_append_right : ∀ (t s r : Str), t.isPrefixOf s = true →
    t.isPrefixOf (s ++ r) = true
  | [], _, _, _ => by simp [List.isPrefixOf]
  | a :: t, [], _, h => by simp [List.isPrefixOf] at h
  | a :: t, b :: s, r, h => by
      simp only [List.isPrefixOf, Bool.and_eq_true, beq_iff_eq] at h ⊢
      exact ⟨h.1, isPrefixOf_append_right t s r h.2⟩

theorem replaceAllGo_skip (tok rep : Str) :
    ∀ (k : ℕ) (s : Str), replaceAllGo tok rep s k = replaceAllGo tok rep (s.drop k) 0 := by
  intro k
  induction k with
  | zero => intro s; rw [List.drop_zero]
  | succ k ih =>
      intro s
      cases s with
      | nil => rfl
      | cons c cs => simpa [replaceAllGo] using ih cs

theorem splitOnGo_skip (tok : Str) :
    ∀ (k : ℕ) (s : Str), splitOnGo tok s k = splitOnGo tok (s.drop k) 0 := by
  intro k
  induction k with
  | zero => intro s; rw [List.drop_zero]
  | succ k ih =>
      intro s
      cases s with
      | nil => rfl
      | cons c cs => simpa [splitOnGo] using ih cs

theorem replaceAll_nil (tok rep : Str) : replaceAll tok rep [] = [] := rfl

theorem replaceAll_neg {tok : Str} {c : Char} {cs : Str} (rep : Str)
    (h : ¬(tok ≠ [] ∧ tok.isPrefixOf (c :: cs) = true)) :
    replaceAll tok rep (c :: cs) = c :: replaceAll tok rep cs := by
  unfold replaceAll
  simp only [replaceAllGo]
  rw [if_neg h]

theorem drop_length_cons {tok : Str} (h : tok ≠ []) (c : Char) (cs : Str) :
    (c :: cs).drop tok.length = cs.drop (tok.length - 1) := by
  have hl : tok.length - 1 + 1 = tok.length :=
    Nat.succ_pred_eq_of_pos (List.length_pos.2 h)
  rw [← hl, List.drop_succ_cons]
  simp

theorem replaceAll_pos {tok : Str} {c : Char} {cs : Str} (rep : Str)
    (h : tok ≠ []) (hp : tok.isPrefixOf (c :: cs) = true) :
    replaceAll tok rep (c :: cs) = rep ++ replaceAll tok rep ((c :: cs).drop tok.length) := by
  unfold replaceAll
  simp only [replaceAllGo]
  rw [if_pos ⟨h, hp⟩, replaceAllGo_skip, drop_length_cons h]

theorem splitOn_nil (tok : Str) : splitOn tok [] = [[]] := rfl

theorem splitOn_neg {tok : Str} {c : Char} {cs : Str}
    (h : ¬(tok ≠ [] ∧ tok.isPrefixOf (c :: cs) = true)) :
    splitOn tok (c :: cs) = consHead c (splitOn tok cs) := by
  unfold splitOn
  simp only [splitOnGo]
  rw [if_neg h]

theorem splitOn_pos {tok : Str} {c : Char} {cs : Str}
    (h : tok ≠ []) (hp : tok.isPrefixOf (c :: cs) = true) :
    splitOn tok (c :: cs) = [] :: splitOn tok ((c :: cs).drop tok.length) := by
  unfold splitOn
  simp only [splitOnGo]
  rw [if_pos ⟨h, hp⟩, splitOnGo_skip, drop_length_cons h]

theorem consHead_ne_nil (c : Char) (l : List Str) : consHead c l ≠ [] := by
  cases l <;> simp [consHead]

theorem splitOn_ne_nil (tok s : Str) : splitOn tok s ≠ [] := by
  cases s with
  | nil => simp [splitOn, splitOnGo]
  | cons c cs =>
      by_cases h : tok ≠ [] ∧ tok.isPrefixOf (c :: cs) = true
      · rw [splitOn_pos h.1 h.2]; simp
      · rw [splitOn_neg h]; exact consHead_ne_nil c _

theorem joinWith_cons_of_ne_nil (sep p : Str) {l : List Str} (h : l ≠ []) :
    joinWith sep (p :: l) = p ++ sep ++ joinWith sep l := by
  obtain ⟨q, qs, rfl⟩ := List.exists_cons_of_ne_nil h
  rfl

theorem joinWith_consHead (sep : Str) (c : Char) {l : List Str} (h : l ≠ []) :
    joinWith sep (consHead c l) = c :: joinWith sep l := by
  obtain ⟨p, ps, rfl⟩ := List.exists_cons_of_ne_nil h
  cases ps with
  | nil => rfl
  | cons q qs => simp [consHead, joinWith]

theorem drop_tok_length_le {tok : Str} (h : tok ≠ []) (c : Char) (cs : Str) :
    ((c :: cs).drop tok.length).length ≤ cs.length := by
  have : 0 < tok.length := List.length_pos.2 h
  simp only [List.length_drop, List.length_cons]
  omega

/-- Reassembling the parts of `splitOn` with the token itself restores
the input: the characters outside the replaced occurrences are exactly
the characters of the parts, byte for byte. -/
theorem joinWith_splitOn_aux (tok : Str) (h : tok ≠ []) :
    ∀ (n : ℕ) (s : Str), s.length ≤ n → joinWith tok (splitOn tok s) = s := by
  intro n
  induction n with
  | zero =>
      intro s hs
      have : s = [] := List.eq_nil_of_length_eq_zero (Nat.le_zero.mp hs)
      subst this
      rfl
  | succ n ih =>
      intro s hs
      cases s with
      | nil => rfl
      | cons c cs =>
          by_cases hp : tok.isPrefixOf (c :: cs) = true
          · rw [splitOn_pos h hp,
              joinWith_cons_of_ne_nil tok [] (splitOn_ne_nil tok _),
              ih _ (le_trans (drop_tok_length_le h c cs) (Nat.le_of_succ_le_succ hs))]
            simpa using isPrefixOf_append_drop tok (c :: cs) hp
          · rw [splitOn_neg (by simp [hp]),
              joinWith_consHead tok c (splitOn_ne_nil tok cs),
              ih cs (Nat.le_of_succ_le_succ hs)]

theorem joinWith_splitOn (tok : Str) (h : tok ≠ []) (s : Str) :
    joinWith tok (splitOn tok s) = s :=
  joinWith_splitOn_aux tok h s.length s le_rfl

/-- `replaceAll` is exactly: split on the token, rejoin with the
replacement — every occurrence is replaced by the same value. -/
theorem replaceAll_eq_joinWith_aux (tok rep : Str) (h : tok ≠ []) :
    ∀ (n : ℕ) (s : Str), s.length ≤ n →
      replaceAll tok rep s = joinWith rep (splitOn tok s) := by
  intro n
  induction n with
  | zero =>
      intro s hs
      have : s = [] := List.eq_nil_of_length_eq_zero (Nat.le_zero.mp hs)
      subst this
      rfl
  | succ n ih =>
      intro s hs
      cases s with
      | nil => rfl
      | cons c cs =>
          by_cases hp : tok.isPrefixOf (c :: cs) = true
          · rw [splitOn_pos h hp, replaceAll_pos rep h hp,
              joinWith_cons_of_ne_nil rep [] (splitOn_ne_nil tok _),
              ih _ (le_trans (drop_tok_length_le h c cs) (Nat.le_of_succ_le_succ hs))]
            simp
          · rw [splitOn_neg (by simp [hp]), replaceAll_neg rep (by simp [hp]),
              joinWith_consHead rep c (splitOn_ne_nil tok cs),
              ih cs (Nat.le_of_succ_le_succ hs)]

theorem replaceAll_eq_joinWith (tok rep : Str) (h : tok ≠ []) (s : Str) :
    replaceAll tok rep s = joinWith rep (splitOn tok s) :=
  replaceAll_eq_joinWith_aux tok rep h s.length s le_rfl

/-- The first part of `splitOn tok s` is an initial segment of `s`. -/
theorem splitOn_head_init (tok : Str) (h : tok ≠ []) :
    ∀ (n : ℕ) (s : Str), s.length ≤ n → ∃ r, (splitOn tok s).headI ++ r = s := by
  intro n
  induction n with
  | zero =>
      intro s hs
      have : s = [] := List.eq_nil_of_length_eq_zero (Nat.le_zero.mp hs)
      subst this
      exact ⟨[], rfl⟩
  | succ n ih =>
      intro s hs
      cases s with
      | nil => exact ⟨[], rfl⟩
      | cons c cs =>
          by_cases hp : tok.isPrefixOf (c :: cs) = true
          · rw [splitOn_pos h hp]
            exact ⟨c :: cs, rfl⟩
          · rw [splitOn_neg (by simp [hp])]
            obtain ⟨p, ps, hE⟩ := List.exists_cons_of_ne_nil (splitOn_ne_nil tok cs)
            obtain ⟨r, hr⟩ := ih cs (Nat.le_of_succ_le_succ hs)
            rw [hE] at hr ⊢
            exact ⟨r, by simpa [consHead] using congrArg (c :: ·) hr⟩

/-- No part produced by `splitOn` still contains the token: after the
replacement no occurrence of the token is left behind in the segments
that came from the input. -/
theorem splitOn_parts_aux (tok : Str) (h : tok ≠ []) :
    ∀ (n : ℕ) (s : Str), s.length ≤ n →
      ∀ p ∈ splitOn tok s, isSubstr tok p = false := by
  intro n
  induction n with
  | zero =>
      intro s hs p hp
      have : s = [] := List.eq_nil_of_length_eq_zero (Nat.le_zero.mp hs)
      subst this
      simp only [splitOn_nil, List.mem_singleton] at hp
      subst hp
      cases tok with
      | nil => exact absurd rfl h
      | cons a t => rfl
  | succ n ih =>
      intro s hs p hp
      cases s with
      | nil =>
          simp only [splitOn_nil, List.mem_singleton] at hp
          subst hp
          cases tok with
          | nil => exact absurd rfl h
          | cons a t => rfl
      | cons c cs =>
          by_cases hpre : tok.isPrefixOf (c :: cs) = true
          · rw [splitOn_pos h hpre] at hp
            rcases List.mem_cons.1 hp with rfl | hp
            · cases tok with
              | nil => exact absurd rfl h
              | cons a t => rfl
            · exact ih _ (le_trans (drop_tok_length_le h c cs) (Nat.le_of_succ_le_succ hs)) p hp
          · rw [splitOn_neg (by simp [hpre])] at hp
            obtain ⟨q, qs, hE⟩ := List.exists_cons_of_ne_nil (splitOn_ne_nil tok cs)
            rw [hE, consHead] at hp
            rcases List.mem_cons.1 hp with rfl | hp
            · simp only [isSubstr, Bool.or_eq_false_iff]
              constructor
              · by_contra hcq
                obtain ⟨r, hr⟩ := splitOn_head_init tok h cs.length cs le_rfl
                rw [hE] at hr
                simp only [List.headI] at hr
                have : tok.isPrefixOf ((c :: q) ++ r) = true :=
                  isPrefixOf_append_right tok (c :: q) r (by simpa using hcq)
                rw [List.cons_append, hr] at this
                exact hpre this
              · exact ih cs (Nat.le_of_succ_le_succ hs) q (hE ▸ List.mem_cons_self q qs)
            · exact ih cs (Nat.le_of_succ_le_succ hs) p (hE ▸ List.mem_cons_of_mem q hp)

theorem splitOn_parts (tok : Str) (h : tok ≠ []) (s : Str) :
    ∀ p ∈ splitOn tok s, isSubstr tok p = false :=
  splitOn_parts_aux tok h s.length s le_rfl

/-- A string with no occurrence of the token splits into the single
part `[s]`. -/
theorem splitOn_of_not_contains {tok : Str} :
    ∀ {s : Str}, isSubstr tok s = false → splitOn tok s = [s]
  | [], _ => rfl
  | c :: cs, h => by
      simp only [isSubstr, Bool.or_eq_false_iff] at h
      rw [splitOn_neg (by simp [h.1]), splitOn_of_not_contains h.2]
      rfl

theorem replaceAll_of_not_contains {tok : Str} (rep : Str) :
    ∀ {s : Str}, isSubstr tok s = false → replaceAll tok rep s = s
  | [], _ => rfl
  | c :: cs, h => by
      simp only [isSubstr, Bool.or_eq_false_iff] at h
      rw [replaceAll_neg rep (by simp [h.1]), replaceAll_of_not_contains rep h.2]

/-! ### Lemmas: `substField` -/

theorem substField_absent {tok text : Str} (fetch : Option Str)
    (h : isSubstr tok text = false) : substField tok fetch text = text := by
  simp [substField, h]

theorem substField_none (tok text : Str) : substField tok none text = text := by
  by_cases h : isSubstr tok text = false
  · exact substField_absent none h
  · simp [substField, h]

theorem substField_some {tok text : Str} (rep : Str)
    (h : isSubstr tok text = true) :
    substField tok (some rep) text = replaceAll tok rep text := by
  simp [substField, h]

/-- `substField` with a successful fetch always equals the
split-then-rejoin of the input, whether or not the token occurs. -/
theorem substField_some_eq_joinWith {tok : Str} (rep text : Str) (h : tok ≠ []) :
    substField tok (some rep) text = joinWith rep (splitOn tok text) := by
  by_cases hc : isSubstr tok text = false
  · rw [substField_absent _ hc, splitOn_of_not_contains hc]
    rfl
  · rw [substField_some rep (by simpa using hc), replaceAll_eq_joinWith tok rep h]

/-! ### Lemmas: the orchestrator chain -/

theorem get_status_eq_fold (env : Env) :
    get_status env =
      List.foldl (fun t p => substField p.1 p.2 t) env.report (fieldSpecs env) := by
  simp only [get_status, fieldSpecs, List.foldl_cons, List.foldl_nil,
    get_interval, get_last, get_dist, get_kernel, get_hostname, get_up_time,
    get_cpu_count_physical, get_cpu_count_logical, get_cpu_freq_max,
    get_cpu_freq_min, get_cpu_freq_current, get_cpu_usage_total,
    get_cpu_usage_per, get_mem_total, get_mem_available, get_mem_used,
    get_mem_percent]

theorem fieldSpecs_map_fst (env : Env) :
    (fieldSpecs env).map Prod.fst = tokens := rfl

/-- A chain of field passes over a text containing none of their
tokens is the identity. -/
theorem foldl_substField_absent :
    ∀ (l : List (Str × Option Str)) (t : Str),
      (∀ p ∈ l, isSubstr p.1 t = false) →
      List.foldl (fun t p => substField p.1 p.2 t) t l = t
  | [], _, _ => rfl
  | p :: l, t, h => by
      have h0 : substField p.1 p.2 t = t :=
        substField_absent p.2 (h p (List.mem_cons_self p l))
      simp only [List.foldl_cons, h0]
      exact foldl_substField_absent l t (fun q hq => h q (List.mem_cons_of_mem p hq))

/-- Failed fetches drop out of the chain: folding all field passes
equals folding only the successful ones, in the same order. -/
theorem foldl_substField_filterMap :
    ∀ (l : List (Str × Option Str)) (t : Str),
      List.foldl (fun t p => substField p.1 p.2 t) t l =
        List.foldl (fun t p => substField p.1 (some p.2) t) t
          (l.filterMap (fun p => p.2.map (fun v => (p.1, v))))
  | [], _ => rfl
  | (tok, none) :: l, t => by
      simp only [List.foldl_cons, List.filterMap_cons, Option.map_none, substField_none]
      exact foldl_substField_filterMap l t
  | (tok, some v) :: l, t => by
      simp only [List.foldl_cons, List.filterMap_cons, Option.map_some]
      exact foldl_substField_filterMap l (substField tok (some v) t)

/-! ### Lemmas: the per-core block -/

/-- Appending `'\n'` to every line, concatenating, and stripping the
final character is exactly a newline join with no trailing newline. -/
theorem flatten_newline_dropLast :
    ∀ (ls : List Str),
      (if ((ls.map (fun l => l ++ ['\n'])).flatten : Str) = [] then
        ((ls.map (fun l => l ++ ['\n'])).flatten : Str)
      else ((ls.map (fun l => l ++ ['\n'])).flatten : Str).dropLast) =
      joinWith ['\n'] ls
  | [] => rfl
  | [l] => by
      simp only [List.map_cons, List.map_nil, List.flatten_cons, List.flatten_nil,
        List.append_nil]
      rw [if_neg (by simp), List.dropLast_concat]
      rfl
  | l :: l' :: ls => by
      have ihs := flatten_newline_dropLast (l' :: ls)
      simp only [List.map_cons, List.flatten_cons] at ihs ⊢
      have hrest : ((l' ++ ['\n']) ++ ((ls.map (fun l => l ++ ['\n'])).flatten : Str)) ≠ [] := by
        simp
      rw [if_neg (by simp), List.dropLast_append_of_ne_nil _ hrest]
      rw [if_neg hrest] at ihs
      rw [ihs, joinWith_cons_of_ne_nil _ _ (by simp : (l' :: ls : List Str) ≠ [])]

theorem perCoreStatus_eq (env : Env) (ps : List Str) :
    perCoreStatus env ps =
      joinWith ['\n'] (ps.enum.map (fun ip => coreLine env ip.1 ip.2)) := by
  have hmap : ps.enum.map (fun ip => coreLine env ip.1 ip.2 ++ ['\n'])
      = (ps.enum.map (fun ip => coreLine env ip.1 ip.2)).map (fun l => l ++ ['\n']) := by
    rw [List.map_map]
    rfl
  unfold perCoreStatus
  rw [hmap]
  exact flatten_newline_dropLast _

/-! ### Lemmas: rounding -/

theorem roundHE_intCast (n : ℤ) : roundHE (n : ℚ) = n := by
  unfold roundHE
  rw [Int.floor_intCast]
  norm_num

theorem roundHE_cases (x : ℚ) : roundHE x = ⌊x⌋ ∨ roundHE x = ⌊x⌋ + 1 := by
  unfold roundHE
  split_ifs <;> simp

theorem roundHE_le (x : ℚ) : (roundHE x : ℚ) ≤ x + 1 / 2 := by
  have h1 := Int.floor_le x
  have h2 := Int.lt_floor_add_one x
  unfold roundHE
  split_ifs with ha hb hc <;> push_cast <;> linarith

theorem le_roundHE (x : ℚ) : x - 1 / 2 ≤ (roundHE x : ℚ) := by
  have h1 := Int.floor_le x
  have h2 := Int.lt_floor_add_one x
  unfold roundHE
  split_ifs with ha hb hc <;> push_cast <;> linarith

theorem roundHE_down {x : ℚ} {n : ℤ} (hf : ⌊x⌋ = n) (hr : x - n < 1 / 2) : roundHE x = n := by
  unfold roundHE
  rw [hf, if_pos hr]

theorem roundHE_up {x : ℚ} {n : ℤ} (hf : ⌊x⌋ = n) (hr : 1 / 2 < x - n) : roundHE x = n + 1 := by
  unfold roundHE
  rw [hf, if_neg (by linarith), if_pos hr]

theorem roundHE_mono {x y : ℚ} (h : x ≤ y) : roundHE x ≤ roundHE y := by
  have hf : ⌊x⌋ ≤ ⌊y⌋ := Int.floor_le_floor h
  rcases eq_or_lt_of_le hf with he | hlt
  · unfold roundHE
    rw [← he]
    split_ifs <;> first | omega | linarith
  · have c1 : roundHE x ≤ ⌊x⌋ + 1 := by
      rcases roundHE_cases x with h' | h' <;> omega
    have c2 : ⌊y⌋ ≤ roundHE y := by
      rcases roundHE_cases y with h' | h' <;> omega
    omega

theorem cent_intCast (n : ℤ) : cent (n : ℚ) = 100 * n := by
  unfold cent
  rw [show ((n : ℚ) * 100) = ((100 * n : ℤ) : ℚ) by push_cast; ring, roundHE_intCast]

theorem cent_mono {x y : ℚ} (h : x ≤ y) : cent x ≤ cent y :=
  roundHE_mono (by linarith)

theorem cent_upper {x : ℚ} (h : x < 1024) : cent x ≤ 102400 := by
  have hle := roundHE_le (x * 100)
  by_contra hcon
  push_neg at hcon
  have h1 : (102401 : ℚ) ≤ ((cent x : ℤ) : ℚ) := by exact_mod_cast hcon
  unfold cent at h1
  linarith

theorem cent_lower {x : ℚ} (h : 1 ≤ x) : 100 ≤ cent x := by
  have hge := le_roundHE (x * 100)
  by_contra hcon
  push_neg at hcon
  have h1 : ((cent x : ℤ) : ℚ) ≤ 99 := by
    exact_mod_cast (by omega : cent x ≤ 99)
  unfold cent at h1
  linarith

theorem cent_zero : cent 0 = 0 := by
  have h := cent_intCast 0
  push_cast at h
  simpa using h

theorem cent_one : cent 1 = 100 := by
  have h := cent_intCast 1
  push_cast at h
  simpa using h

/-! ### Lemmas: the binary64 rounding `fl53` -/

theorem fl53_eq {x : ℚ} (e : ℤ) (h1 : (2 : ℚ) ^ (e + 52) ≤ x) (h2 : x < (2 : ℚ) ^ (e + 53)) :
    fl53 x = (roundHE (x / 2 ^ e) : ℚ) * 2 ^ e := by
  have hx : 0 < x := lt_of_lt_of_le (by positivity) h1
  have hlog : Int.log 2 x = e + 52 := by
    apply le_antisymm
    · by_contra hcon
      push_neg at hcon
      have h3 : (2 : ℚ) ^ (e + 53) ≤ (2 : ℚ) ^ Int.log 2 x :=
        zpow_le_zpow_right₀ one_le_two (by omega)
      have h4 : ((2 : ℕ) : ℚ) ^ Int.log 2 x ≤ x := Int.zpow_log_le_self one_lt_two hx
      push_cast at h4
      linarith
    · have h5 : Int.log 2 (((2 : ℕ) : ℚ) ^ (e + 52)) ≤ Int.log 2 x := by
        apply Int.log_mono_right (by positivity)
        push_cast
        exact h1
      rw [Int.log_zpow one_lt_two] at h5
      exact h5
  unfold fl53
  rw [if_neg (not_le.2 hx), hlog, show e + 52 - 52 = e by ring]

theorem fl53_two_zpow (n : ℤ) : fl53 ((2 : ℚ) ^ n) = (2 : ℚ) ^ n := by
  rw [fl53_eq (n - 52) (by rw [show n - 52 + 52 = n by ring])
      (by rw [show n - 52 + 53 = n + 1 by ring]
          exact zpow_lt_zpow_right₀ one_lt_two (by omega))]
  rw [show (2 : ℚ) ^ n / 2 ^ (n - 52) = ((4503599627370496 : ℤ) : ℚ) by
        rw [← zpow_sub₀ (two_ne_zero : (2 : ℚ) ≠ 0), show n - (n - 52) = 52 by ring]
        norm_num,
    roundHE_intCast]
  rw [show ((4503599627370496 : ℤ) : ℚ) = 2 ^ (52 : ℤ) by norm_num,
    ← zpow_add₀ (two_ne_zero : (2 : ℚ) ≠ 0), show (52 : ℤ) + (n - 52) = n by ring]

theorem fl53_one : fl53 1 = 1 := by
  have h := fl53_two_zpow 0
  simpa using h

theorem fl53_le_two_zpow {x : ℚ} (hx : 0 < x) :
    fl53 x ≤ (2 : ℚ) ^ (Int.log 2 x + 1) := by
  have hxu : ((2 : ℕ) : ℚ) ^ (Int.log 2 x + 1) > x := Int.lt_zpow_succ_log_self one_lt_two x
  push_cast at hxu
  have h53 : ((2 : ℚ) ^ (53 : ℤ)) = 9007199254740992 := by norm_num
  have hdiv : x / 2 ^ (Int.log 2 x - 52) < 2 ^ (53 : ℤ) := by
    rw [div_lt_iff₀ (by positivity)]
    calc x < 2 ^ (Int.log 2 x + 1) := hxu
    _ = 2 ^ (53 : ℤ) * 2 ^ (Int.log 2 x - 52) := by
        rw [← zpow_add₀ (two_ne_zero : (2 : ℚ) ≠ 0),
          show (53 : ℤ) + (Int.log 2 x - 52) = Int.log 2 x + 1 by ring]
  have hle := roundHE_le (x / 2 ^ (Int.log 2 x - 52))
  have hint : roundHE (x / 2 ^ (Int.log 2 x - 52)) ≤ 9007199254740992 := by
    by_contra hcon
    push_neg at hcon
    have hq : (9007199254740993 : ℚ) ≤ (roundHE (x / 2 ^ (Int.log 2 x - 52)) : ℚ) := by
      exact_mod_cast hcon
    linarith
  have hr : (roundHE (x / 2 ^ (Int.log 2 x - 52)) : ℚ) ≤ 2 ^ (53 : ℤ) := by
    rw [h53]
    exact_mod_cast hint
  unfold fl53
  rw [if_neg (not_le.2 hx)]
  calc (roundHE (x / 2 ^ (Int.log 2 x - 52)) : ℚ) * 2 ^ (Int.log 2 x - 52)
      ≤ 2 ^ (53 : ℤ) * 2 ^ (Int.log 2 x - 52) :=
        mul_le_mul_of_nonneg_right hr (by positivity)
  _ = 2 ^ (Int.log 2 x + 1) := by
        rw [← zpow_add₀ (two_ne_zero : (2 : ℚ) ≠ 0),
          show (53 : ℤ) + (Int.log 2 x - 52) = Int.log 2 x + 1 by ring]

theorem two_zpow_log_le_fl53 {x : ℚ} (hx : 0 < x) :
    (2 : ℚ) ^ Int.log 2 x ≤ fl53 x := by
  have hxl : ((2 : ℕ) : ℚ) ^ Int.log 2 x ≤ x := Int.zpow_log_le_self one_lt_two hx
  push_cast at hxl
  have h52 : ((2 : ℚ) ^ (52 : ℤ)) = 4503599627370496 := by norm_num
  have hdiv : (2 : ℚ) ^ (52 : ℤ) ≤ x / 2 ^ (Int.log 2 x - 52) := by
    rw [le_div_iff₀ (by positivity)]
    calc (2 : ℚ) ^ (52 : ℤ) * 2 ^ (Int.log 2 x - 52) = 2 ^ Int.log 2 x := by
          rw [← zpow_add₀ (two_ne_zero : (2 : ℚ) ≠ 0),
            show (52 : ℤ) + (Int.log 2 x - 52) = Int.log 2 x by ring]
    _ ≤ x := hxl
  have hge := le_roundHE (x / 2 ^ (Int.log 2 x - 52))
  have hint : (4503599627370496 : ℤ) ≤ roundHE (x / 2 ^ (Int.log 2 x - 52)) := by
    by_contra hcon
    push_neg at hcon
    have hq : (roundHE (x / 2 ^ (Int.log 2 x - 52)) : ℚ) ≤ 4503599627370495 := by
      exact_mod_cast (by omega : roundHE (x / 2 ^ (Int.log 2 x - 52)) ≤ 4503599627370495)
    linarith
  have hr : (2 : ℚ) ^ (52 : ℤ) ≤ (roundHE (x / 2 ^ (Int.log 2 x - 52)) : ℚ) := by
    rw [h52]
    exact_mod_cast hint
  unfold fl53
  rw [if_neg (not_le.2 hx)]
  calc (2 : ℚ) ^ Int.log 2 x = 2 ^ (52 : ℤ) * 2 ^ (Int.log 2 x - 52) := by
        rw [← zpow_add₀ (two_ne_zero : (2 : ℚ) ≠ 0),
          show (52 : ℤ) + (Int.log 2 x - 52) = Int.log 2 x by ring]
  _ ≤ (roundHE (x / 2 ^ (Int.log 2 x - 52)) : ℚ) * 2 ^ (Int.log 2 x - 52) :=
        mul_le_mul_of_nonneg_right hr (by positivity)

theorem fl53_mono {x y : ℚ} (hx : 0 < x) (hxy : x ≤ y) : fl53 x ≤ fl53 y := by
  have hy : 0 < y := lt_of_lt_of_le hx hxy
  have hee : Int.log 2 x ≤ Int.log 2 y := Int.log_mono_right hx hxy
  rcases eq_or_lt_of_le hee with he | hlt
  · unfold fl53
    rw [if_neg (not_le.2 hx), if_neg (not_le.2 hy), ← he]
    have hpos : (0 : ℚ) < 2 ^ (Int.log 2 x - 52) := by positivity
    have hr : roundHE (x / 2 ^ (Int.log 2 x - 52)) ≤ roundHE (y / 2 ^ (Int.log 2 x - 52)) :=
      roundHE_mono (by gcongr)
    have hrq : ((roundHE (x / 2 ^ (Int.log 2 x - 52)) : ℤ) : ℚ)
        ≤ ((roundHE (y / 2 ^ (Int.log 2 x - 52)) : ℤ) : ℚ) := by exact_mod_cast hr
    exact mul_le_mul_of_nonneg_right hrq hpos.le
  · calc fl53 x ≤ (2 : ℚ) ^ (Int.log 2 x + 1) := fl53_le_two_zpow hx
    _ ≤ (2 : ℚ) ^ Int.log 2 y := zpow_le_zpow_right₀ one_le_two (by omega)
    _ ≤ fl53 y := two_zpow_log_le_fl53 hy

theorem fl53_pow3 : fl53 ((1024 : ℚ) ^ 3) = (1024 : ℚ) ^ 3 := by
  rw [show ((1024 : ℚ) ^ 3) = (2 : ℚ) ^ (30 : ℤ) by norm_num, fl53_two_zpow]

theorem fl53_pow5 : fl53 ((1024 : ℚ) ^ 5) = (1024 : ℚ) ^ 5 := by
  rw [show ((1024 : ℚ) ^ 5) = (2 : ℚ) ^ (50 : ℤ) by norm_num, fl53_two_zpow]

/-- The first float division at `1024 ^ 6 - 1`: the exact quotient
`2 ^ 50 - 2 ^ (-10)` lies within half an ulp of the binade boundary
and rounds up to exactly `2 ^ 50 = 1024 ^ 5`. -/
theorem fl53_sub_one : fl53 (((1024 : ℚ) ^ 6 - 1) / 1024) = 1024 ^ 5 := by
  rw [fl53_eq (-3) (by norm_num) (by norm_num)]
  rw [show ((1024 : ℚ) ^ 6 - 1) / 1024 / 2 ^ (-3 : ℤ) = ((1024 : ℚ) ^ 6 - 1) / 128 by
        rw [show ((2 : ℚ) ^ (-3 : ℤ)) = 1 / 8 by norm_num]
        ring]
  have hfl : ⌊((1024 : ℚ) ^ 6 - 1) / 128⌋ = 9007199254740991 := by
    rw [Int.floor_eq_iff]
    constructor <;> norm_num
  rw [roundHE_up hfl (by push_cast; norm_num)]
  push_cast
  norm_num

/-- The first float division at `1024 ^ 6 - 65`: the exact quotient
`2 ^ 50 - 65 / 1024` is closer to the float below the boundary and
rounds down to `2 ^ 50 - 1 / 8`. -/
theorem fl53_sub_65 : fl53 (((1024 : ℚ) ^ 6 - 65) / 1024) = 1024 ^ 5 - 1 / 8 := by
  rw [fl53_eq (-3) (by norm_num) (by norm_num)]
  rw [show ((1024 : ℚ) ^ 6 - 65) / 1024 / 2 ^ (-3 : ℤ) = ((1024 : ℚ) ^ 6 - 65) / 128 by
        rw [show ((2 : ℚ) ^ (-3 : ℤ)) = 1 / 8 by norm_num]
        ring]
  have hfl : ⌊((1024 : ℚ) ^ 6 - 65) / 128⌋ = 9007199254740991 := by
    rw [Int.floor_eq_iff]
    constructor <;> norm_num
  rw [roundHE_down hfl (by push_cast; norm_num)]
  push_cast
  norm_num

/-! ### Lemmas: the loop on the float value -/

theorem sizeLoop_break {b : ℚ} (h : b < 1024) (u : String) (rest : List String) :
    sizeLoop b (u :: rest) = (b, u) := by
  cases rest <;> simp [sizeLoop, h]

theorem sizeLoop_step {b : ℚ} (h : ¬ b < 1024) (u v : String) (rest : List String) :
    sizeLoop b (u :: v :: rest) = sizeLoop (b / 1024) (v :: rest) := by
  simp [sizeLoop, h]

theorem sizeLoop_end {b : ℚ} (h : ¬ b < 1024) (u : String) :
    sizeLoop b [u] = (b / 1024, u) := by
  simp [sizeLoop, h]

theorem tailLoop_break {B : ℚ} (hhi : B < 1024) : sizeLoop B tailUnits = (B, "K") := by
  simp only [tailUnits]
  exact sizeLoop_break hhi _ _

theorem tailLoop_band1 {B : ℚ} (hlo : (1024 : ℚ) ≤ B) (hhi : B < 1024 ^ 2) :
    sizeLoop B tailUnits = (B / 1024, "M") := by
  have c0 : ¬ B < 1024 := not_lt.2 hlo
  have d1 : B / 1024 < 1024 := by
    rw [div_lt_iff₀ (by norm_num : (0 : ℚ) < 1024)]
    linarith
  simp only [tailUnits]
  rw [sizeLoop_step c0, sizeLoop_break d1]

theorem tailLoop_band2 {B : ℚ} (hlo : (1024 : ℚ) ^ 2 ≤ B) (hhi : B < 1024 ^ 3) :
    sizeLoop B tailUnits = (B / 1024 ^ 2, "G") := by
  have c0 : ¬ B < 1024 := not_lt.2 (by linarith)
  have c1 : ¬ B / 1024 < 1024 := by
    rw [not_lt, le_div_iff₀ (by norm_num : (0 : ℚ) < 1024)]
    linarith
  have d2 : B / 1024 / 1024 < 1024 := by
    rw [div_div, div_lt_iff₀ (by norm_num : (0 : ℚ) < 1024 * 1024)]
    linarith
  have e : B / 1024 / 1024 = B / 1024 ^ 2 := by
    rw [div_div]
    norm_num
  simp only [tailUnits]
  rw [sizeLoop_step c0, sizeLoop_step c1, sizeLoop_break d2, e]

theorem tailLoop_band3 {B : ℚ} (hlo : (1024 : ℚ) ^ 3 ≤ B) (hhi : B < 1024 ^ 4) :
    sizeLoop B tailUnits = (B / 1024 ^ 3, "T") := by
  have c0 : ¬ B < 1024 := not_lt.2 (by linarith)
  have c1 : ¬ B / 1024 < 1024 := by
    rw [not_lt, le_div_iff₀ (by norm_num : (0 : ℚ) < 1024)]
    linarith
  have c2 : ¬ B / 1024 / 1024 < 1024 := by
    rw [not_lt, div_div, le_div_iff₀ (by norm_num : (0 : ℚ) < 1024 * 1024)]
    linarith
  have d3 : B / 1024 / 1024 / 1024 < 1024 := by
    rw [div_div, div_div, div_lt_iff₀ (by norm_num : (0 : ℚ) < 1024 * (1024 * 1024))]
    linarith
  have e : B / 1024 / 1024 / 1024 = B / 1024 ^ 3 := by
    rw [div_div, div_div]
    norm_num
  simp only [tailUnits]
  rw [sizeLoop_step c0, sizeLoop_step c1, sizeLoop_step c2, sizeLoop_break d3, e]

theorem tailLoop_band4 {B : ℚ} (hlo : (1024 : ℚ) ^ 4 ≤ B) (hhi : B < 1024 ^ 5) :
    sizeLoop B tailUnits = (B / 1024 ^ 4, "P") := by
  have c0 : ¬ B < 1024 := not_lt.2 (by linarith)
  have c1 : ¬ B / 1024 < 1024 := by
    rw [not_lt, le_div_iff₀ (by norm_num : (0 : ℚ) < 1024)]
    linarith
  have c2 : ¬ B / 1024 / 1024 < 1024 := by
    rw [not_lt, div_div, le_div_iff₀ (by norm_num : (0 : ℚ) < 1024 * 1024)]
    linarith
  have c3 : ¬ B / 1024 / 1024 / 1024 < 1024 := by
    rw [not_lt, div_div, div_div, le_div_iff₀ (by norm_num : (0 : ℚ) < 1024 * (1024 * 1024))]
    linarith
  have d4 : B / 1024 / 1024 / 1024 / 1024 < 1024 := by
    rw [div_div, div_div, div_div,
      div_lt_iff₀ (by norm_num : (0 : ℚ) < 1024 * (1024 * (1024 * 1024)))]
    linarith
  have e : B / 1024 / 1024 / 1024 / 1024 = B / 1024 ^ 4 := by
    rw [div_div, div_div, div_div]
    norm_num
  simp only [tailUnits]
  rw [sizeLoop_step c0, sizeLoop_step c1, sizeLoop_step c2, sizeLoop_step c3,
    sizeLoop_break d4, e]

/-- When the float value reaches `1024 ^ 5` the tail loop exhausts its
units: the value is divided once more while the unit stays `"P"`. -/
theorem tailLoop_top {B : ℚ} (hlo : (1024 : ℚ) ^ 5 ≤ B) :
    sizeLoop B tailUnits = (B / 1024 ^ 5, "P") := by
  have c0 : ¬ B < 1024 := not_lt.2 (by linarith)
  have c1 : ¬ B / 1024 < 1024 := by
    rw [not_lt, le_div_iff₀ (by norm_num : (0 : ℚ) < 1024)]
    linarith
  have c2 : ¬ B / 1024 / 1024 < 1024 := by
    rw [not_lt, div_div, le_div_iff₀ (by norm_num : (0 : ℚ) < 1024 * 1024)]
    linarith
  have c3 : ¬ B / 1024 / 1024 / 1024 < 1024 := by
    rw [not_lt, div_div, div_div, le_div_iff₀ (by norm_num : (0 : ℚ) < 1024 * (1024 * 1024))]
    linarith
  have c4 : ¬ B / 1024 / 1024 / 1024 / 1024 < 1024 := by
    rw [not_lt, div_div, div_div, div_div,
      le_div_iff₀ (by norm_num : (0 : ℚ) < 1024 * (1024 * (1024 * 1024)))]
    linarith
  have e : B / 1024 / 1024 / 1024 / 1024 / 1024 = B / 1024 ^ 5 := by
    rw [div_div, div_div, div_div, div_div]
    norm_num
  simp only [tailUnits]
  rw [sizeLoop_step c0, sizeLoop_step c1, sizeLoop_step c2, sizeLoop_step c3,
    sizeLoop_end c4, e]

/-- Below `1024 ^ 5` the float value lands in a well-defined band: it
is divided `i ≤ 4` more times and labelled with unit `i + 1`. -/
theorem tailLoop_band (B : ℚ) (h5 : B < 1024 ^ 5) :
    ∃ i, i ≤ 4 ∧ (i = 0 ∨ (1024 : ℚ) ^ i ≤ B) ∧ B < 1024 ^ (i + 1) ∧
      sizeLoop B tailUnits = (B / 1024 ^ i, unitOfIdx (i + 1)) := by
  rcases lt_or_le B 1024 with h | h1
  · refine ⟨0, by norm_num, Or.inl rfl, by norm_num at h ⊢; exact h, ?_⟩
    rw [tailLoop_break h, pow_zero, div_one]
    rfl
  rcases lt_or_le B (1024 ^ 2) with h | h2
  · refine ⟨1, by norm_num, Or.inr h1, by norm_num at h ⊢; exact h, ?_⟩
    rw [tailLoop_band1 h1 h, pow_one]
    rfl
  rcases lt_or_le B (1024 ^ 3) with h | h3
  · exact ⟨2, by norm_num, Or.inr h2, h, by rw [tailLoop_band2 h2 h]; rfl⟩
  rcases lt_or_le B (1024 ^ 4) with h | h4
  · exact ⟨3, by norm_num, Or.inr h3, h, by rw [tailLoop_band3 h3 h]; rfl⟩
  · exact ⟨4, by norm_num, Or.inr h4, h5, by rw [tailLoop_band4 h4 h5]; rfl⟩

theorem unitFactor_unitOfIdx : ∀ k : ℕ, k ≤ 5 → unitFactor (unitOfIdx k) = 1024 ^ k := by
  intro k hk
  interval_cases k
  · rw [pow_zero]
    rfl
  · rw [pow_one]
    rfl
  · rfl
  · rfl
  · rfl
  · rfl

theorem floatVal_small {b : ℤ} (h : b < 1024) : floatVal b = ((b : ℚ), "") := by
  unfold floatVal
  rw [if_pos h]

theorem floatVal_big {b : ℤ} (h : ¬ b < 1024) :
    floatVal b = sizeLoop (fl53 ((b : ℚ) / 1024)) tailUnits := by
  unfold floatVal
  rw [if_neg h]

theorem one_le_fl53_div {b : ℤ} (h : 1024 ≤ b) : 1 ≤ fl53 ((b : ℚ) / 1024) := by
  have hb : (1024 : ℚ) ≤ (b : ℚ) := by exact_mod_cast h
  have h1 : (1 : ℚ) ≤ (b : ℚ) / 1024 := by
    rw [le_div_iff₀ (by norm_num : (0 : ℚ) < 1024)]
    linarith
  calc (1 : ℚ) = fl53 1 := fl53_one.symm
  _ ≤ fl53 ((b : ℚ) / 1024) := fl53_mono one_pos h1

/-- The effective overflow threshold of the source: for counts up to
`1024 ^ 6 - 65` the rounded first quotient stays strictly below
`1024 ^ 5` (from `1024 ^ 6 - 64` upward it rounds to `1024 ^ 5`). -/
theorem fl53_div_le_thresh {b : ℤ} (h1024 : 1024 ≤ b) (hb : b ≤ 1024 ^ 6 - 65) :
    fl53 ((b : ℚ) / 1024) ≤ 1024 ^ 5 - 1 / 8 := by
  have hb' : (b : ℚ) ≤ (1024 : ℚ) ^ 6 - 65 := by exact_mod_cast hb
  have hbpos : (0 : ℚ) < (b : ℚ) := by
    exact_mod_cast lt_of_lt_of_le (by norm_num : (0 : ℤ) < 1024) h1024
  calc fl53 ((b : ℚ) / 1024) ≤ fl53 (((1024 : ℚ) ^ 6 - 65) / 1024) := by
        apply fl53_mono (by positivity)
        gcongr
  _ = 1024 ^ 5 - 1 / 8 := fl53_sub_65

theorem sizeDenote_small {b : ℤ} (h : b < 1024) : sizeDenote b = (b : ℚ) := by
  simp only [sizeDenote, floatVal_small h]
  rw [cent_intCast, show unitFactor ("") = 1 from rfl]
  push_cast
  ring

/-! ### Lemmas: concrete `get_size` evaluations -/

theorem get_size_zero : get_size 0 ("B") = "0.00 B" := by
  simp only [get_size, floatVal_small (by norm_num : (0 : ℤ) < 1024), format2,
    Int.cast_zero, cent_zero]
  decide

theorem get_size_kib : get_size 1024 ("B") = "1.00 KB" := by
  have hone : fl53 (((1024 : ℤ) : ℚ) / 1024) = 1 := by
    rw [show (((1024 : ℤ) : ℚ) / 1024) = 1 by norm_num, fl53_one]
  have hL : sizeLoop (1 : ℚ) tailUnits = (1, "K") := tailLoop_break (by norm_num)
  simp only [get_size, floatVal_big (by norm_num : ¬ (1024 : ℤ) < 1024), hone, hL,
    format2, cent_one]
  decide

theorem get_size_tib : get_size (1024 ^ 4) ("B") = "1.00 TB" := by
  have hB : fl53 (((1024 ^ 4 : ℤ) : ℚ) / 1024) = (1024 : ℚ) ^ 3 := by
    rw [show (((1024 ^ 4 : ℤ) : ℚ) / 1024) = (1024 : ℚ) ^ 3 by push_cast; norm_num, fl53_pow3]
  have hL : sizeLoop ((1024 : ℚ) ^ 3) tailUnits = (1, "T") := by
    have h := tailLoop_band3 (le_refl ((1024 : ℚ) ^ 3)) (by norm_num)
    rw [show (1024 : ℚ) ^ 3 / 1024 ^ 3 = 1 by norm_num] at h
    exact h
  simp only [get_size, floatVal_big (by norm_num : ¬ (1024 ^ 4 : ℤ) < 1024), hB, hL,
    format2, cent_one]
  decide

theorem tailLoop_at_pow5 : sizeLoop ((1024 : ℚ) ^ 5) tailUnits = (1, "P") := by
  have h := tailLoop_top (le_refl ((1024 : ℚ) ^ 5))
  rw [show (1024 : ℚ) ^ 5 / 1024 ^ 5 = 1 by norm_num] at h
  exact h

theorem get_size_p6 : get_size (1024 ^ 6) ("B") = "1.00 PB" := by
  have hB : fl53 (((1024 ^ 6 : ℤ) : ℚ) / 1024) = (1024 : ℚ) ^ 5 := by
    rw [show (((1024 ^ 6 : ℤ) : ℚ) / 1024) = (1024 : ℚ) ^ 5 by push_cast; norm_num, fl53_pow5]
  simp only [get_size, floatVal_big (by norm_num : ¬ (1024 ^ 6 : ℤ) < 1024), hB,
    tailLoop_at_pow5, format2, cent_one]
  decide

theorem get_size_p6m1 : get_size (1024 ^ 6 - 1) ("B") = "1.00 PB" := by
  have hB : fl53 (((1024 ^ 6 - 1 : ℤ) : ℚ) / 1024) = (1024 : ℚ) ^ 5 := by
    rw [show (((1024 ^ 6 - 1 : ℤ) : ℚ) / 1024) = ((1024 : ℚ) ^ 6 - 1) / 1024 by push_cast; ring,
      fl53_sub_one]
  simp only [get_size, floatVal_big (by norm_num : ¬ (1024 ^ 6 - 1 : ℤ) < 1024), hB,
    tailLoop_at_pow5, format2, cent_one]
  decide

theorem sizeDenote_p6m1 : sizeDenote (1024 ^ 6 - 1) = (1024 : ℚ) ^ 5 := by
  have hB : fl53 (((1024 ^ 6 - 1 : ℤ) : ℚ) / 1024) = (1024 : ℚ) ^ 5 := by
    rw [show (((1024 ^ 6 - 1 : ℤ) : ℚ) / 1024) = ((1024 : ℚ) ^ 6 - 1) / 1024 by push_cast; ring,
      fl53_sub_one]
  simp only [sizeDenote, floatVal_big (by norm_num : ¬ (1024 ^ 6 - 1 : ℤ) < 1024), hB,
    tailLoop_at_pow5]
  rw [cent_one, show unitFactor ("P") = (1024 : ℚ) ^ 5 from rfl]
  push_cast
  norm_num

theorem sizeDenote_p6m65 : sizeDenote (1024 ^ 6 - 65) = (1024 : ℚ) ^ 6 := by
  have hB : fl53 (((1024 ^ 6 - 65 : ℤ) : ℚ) / 1024) = (1024 : ℚ) ^ 5 - 1 / 8 := by
    rw [show (((1024 ^ 6 - 65 : ℤ) : ℚ) / 1024) = ((1024 : ℚ) ^ 6 - 65) / 1024 by
          push_cast; ring,
      fl53_sub_65]
  have hL : sizeLoop ((1024 : ℚ) ^ 5 - 1 / 8) tailUnits
      = (((1024 : ℚ) ^ 5 - 1 / 8) / 1024 ^ 4, "P") :=
    tailLoop_band4 (by norm_num) (by norm_num)
  have hfl : ⌊(((1024 : ℚ) ^ 5 - 1 / 8) / 1024 ^ 4) * 100⌋ = 102399 := by
    rw [Int.floor_eq_iff]
    constructor <;> norm_num
  have hc : cent (((1024 : ℚ) ^ 5 - 1 / 8) / 1024 ^ 4) = 102400 := by
    unfold cent
    rw [roundHE_up hfl (by push_cast; norm_num)]
    norm_num
  simp only [sizeDenote, floatVal_big (by norm_num : ¬ (1024 ^ 6 - 65 : ℤ) < 1024), hB, hL]
  rw [hc, show unitFactor ("P") = (1024 : ℚ) ^ 5 from rfl]
  push_cast
  norm_num


/-! ### The claim theorems -/

/-- C1: when a field function's token occurs in the input and the
metric fetch and formatting succeed, the result is the input with
every (leftmost, non-overlapping) occurrence of the token replaced by
the same formatted value: the output is the token-free segments of the
input rejoined with the value, those segments rejoined with the token
give back the input byte for byte, and no segment still contains the
token.  The function takes only its own token into account, so no
other token type is substituted. -/
theorem substitution_replaces_every_occurrence (tok rep text : Str)
    (htok : tok ≠ []) (hocc : isSubstr tok text = true) :
    substField tok (some rep) text = replaceAll tok rep text
    ∧ replaceAll tok rep text = joinWith rep (splitOn tok text)
    ∧ joinWith tok (splitOn tok text) = text
    ∧ ∀ p ∈ splitOn tok text, isSubstr tok p = false :=
  ⟨substField_some rep hocc, replaceAll_eq_joinWith tok rep htok text,
    joinWith_splitOn tok htok text, splitOn_parts tok htok text⟩

theorem substitution_replaces_every_occurrence_witness :
    (("$hostname$".data : Str) ≠ []
      ∧ isSubstr ("$hostname$".data) ("Host: $hostname$!".data) = true)
    ∧ (substField ("$hostname$".data) (some ("srv1".data)) ("Host: $hostname$!".data)
        = replaceAll ("$hostname$".data) ("srv1".data) ("Host: $hostname$!".data)
      ∧ replaceAll ("$hostname$".data) ("srv1".data) ("Host: $hostname$!".data)
        = joinWith ("srv1".data) (splitOn ("$hostname$".data) ("Host: $hostname$!".data))
      ∧ joinWith ("$hostname$".data) (splitOn ("$hostname$".data) ("Host: $hostname$!".data))
        = "Host: $hostname$!".data
      ∧ ∀ p ∈ splitOn ("$hostname$".data) ("Host: $hostname$!".data),
          isSubstr ("$hostname$".data) p = false) :=
  ⟨⟨by decide, by decide⟩,
    substitution_replaces_every_occurrence _ _ _ (by decide) (by decide)⟩

/-- C2: when fetching or formatting the metric fails, every field
function returns the original input unmodified — the substitution is
atomic, the placeholder stays in the text, and (the model being a
total function) no error escapes to the caller.  Stated for the
uniform body and for `get_cpu_usage_per` in particular. -/
theorem failed_fetch_returns_input :
    (∀ (tok text : Str), substField tok none text = text)
    ∧ ∀ (env : Env) (text : Str), env.cpu_percent_per = none →
        get_cpu_usage_per env text = text := by
  refine ⟨substField_none, ?_⟩
  intro env text h
  simp only [get_cpu_usage_per, h, Option.map_none', substField_none]

theorem failed_fetch_returns_input_witness :
    envNone.cpu_percent_per = none
    ∧ get_cpu_usage_per envNone ("x$cpu_percent_per$y".data)
        = "x$cpu_percent_per$y".data :=
  ⟨rfl, failed_fetch_returns_input.2 envNone _ rfl⟩

/-- C3: a field function whose token is absent returns the input
unchanged whatever its fetch would produce (so no fetch is needed),
and a template containing none of the recognized tokens passes through
`get_status` unchanged. -/
theorem absent_token_is_noop :
    (∀ (tok : Str) (fetch : Option Str) (text : Str),
        isSubstr tok text = false → substField tok fetch text = text)
    ∧ ∀ env : Env, (∀ tok ∈ tokens, isSubstr tok env.report = false) →
        get_status env = env.report := by
  refine ⟨fun tok fetch text h => substField_absent fetch h, ?_⟩
  intro env h
  rw [get_status_eq_fold]
  refine foldl_substField_absent (fieldSpecs env) env.report ?_
  intro p hp
  refine h p.1 ?_
  rw [← fieldSpecs_map_fst env]
  exact List.mem_map_of_mem Prod.fst hp

theorem absent_token_is_noop_witness :
    (∀ tok ∈ tokens, isSubstr tok envPlain.report = false)
    ∧ get_status envPlain = envPlain.report :=
  ⟨by decide, absent_token_is_noop.2 envPlain (by decide)⟩

/-- C6: `get_status` is a total function (it never raises), and its
result is exactly the fold of the successful substitutions in source
order over the template — failed accessors drop out of the chain, so
the output is the partly substituted text accumulated so far, the
original template when every fetch fails. -/
theorem get_status_accumulates_successes (env : Env) :
    get_status env =
      List.foldl (fun t p => substField p.1 (some p.2) t) env.report
        ((fieldSpecs env).filterMap (fun p => p.2.map (fun v => (p.1, v)))) := by
  rw [get_status_eq_fold]
  exact foldl_substField_filterMap (fieldSpecs env) env.report

/-- C7 as stated is false: a fetched value may itself contain (or
recreate) the placeholder, and then the second run substitutes again.
With hostname `"x$hostname$y"`, running `get_hostname` twice on
`"$hostname$"` gives `"xx$hostname$yy"`, not the first output
`"x$hostname$y"`. -/
theorem idempotence_counterexample :
    get_hostname envHost (get_hostname envHost ("$hostname$".data))
      ≠ get_hostname envHost ("$hostname$".data) := by decide

/-- C7 amended: a field function is idempotent on every input whose
first output no longer contains the token (in particular whenever the
fetched value does not contain or recreate the placeholder): the
presence check then returns the input unchanged. -/
theorem substField_idempotent_of_output_token_free
    (tok : Str) (fetch : Option Str) (text : Str)
    (h : isSubstr tok (substField tok fetch text) = false) :
    substField tok fetch (substField tok fetch text) = substField tok fetch text :=
  substField_absent fetch h

theorem substField_idempotent_witness :
    isSubstr ("$hostname$".data)
        (substField ("$hostname$".data) (some ("srv1".data)) ("Host: $hostname$".data)) = false
    ∧ substField ("$hostname$".data) (some ("srv1".data))
        (substField ("$hostname$".data) (some ("srv1".data)) ("Host: $hostname$".data))
      = substField ("$hostname$".data) (some ("srv1".data)) ("Host: $hostname$".data) :=
  ⟨by decide, substField_idempotent_of_output_token_free _ _ _ (by decide)⟩

/-- C8 as stated is false: the code writes a tab between the localized
core label and the 1-based index (`f"{lang('core')}\t{i + 1}..."`),
while the claimed line template `\t\t\t\t<core><index><colon><percent>%`
has no separator there.  With one core at `10.0`, label `"Core"` and
colon `": "`, the produced block is `"\t\t\t\tCore\t1: 10.0%"`, not
`"\t\t\t\tCore1: 10.0%"`. -/
theorem per_core_template_counterexample :
    get_cpu_usage_per envOneCore ("$cpu_percent_per$".data)
      = "\t\t\t\tCore\t1: 10.0%".data
    ∧ get_cpu_usage_per envOneCore ("$cpu_percent_per$".data)
      ≠ "\t\t\t\tCore1: 10.0%".data := by
  constructor <;> decide

/-- C8 amended: when the per-core sample succeeds, the substituted
block has exactly one line per reported core; line `i` is
`\t\t\t\t<core>\t<index 1-based><colon><percent>%` with the core label
and colon glyph from the localization lookup; the lines are joined by
newline with no trailing newline. -/
theorem per_core_block_shape (env : Env) (ps : List Str) (text : Str)
    (h : env.cpu_percent_per = some ps) :
    (∀ (i : ℕ) (p : Str), coreLine env i p
        = ['\t', '\t', '\t', '\t'] ++ env.core ++ ['\t'] ++ (Nat.repr (i + 1)).data
            ++ env.colon ++ (p ++ ['%']))
    ∧ (ps.enum.map (fun ip => coreLine env ip.1 ip.2)).length = ps.length
    ∧ get_cpu_usage_per env text
        = substField ("$cpu_percent_per$".data)
            (some (joinWith ['\n'] (ps.enum.map (fun ip => coreLine env ip.1 ip.2)))) text := by
  refine ⟨fun i p => rfl, by simp [List.enum_length], ?_⟩
  simp only [get_cpu_usage_per, h, Option.map_some']
  rw [perCoreStatus_eq]

theorem per_core_block_shape_witness :
    envOneCore.cpu_percent_per = some ["10.0".data]
    ∧ ((∀ (i : ℕ) (p : Str), coreLine envOneCore i p
          = ['\t', '\t', '\t', '\t'] ++ envOneCore.core ++ ['\t'] ++ (Nat.repr (i + 1)).data
              ++ envOneCore.colon ++ (p ++ ['%']))
      ∧ ((["10.0".data] : List Str).enum.map
            (fun ip => coreLine envOneCore ip.1 ip.2)).length
          = (["10.0".data] : List Str).length
      ∧ get_cpu_usage_per envOneCore ("$cpu_percent_per$".data)
          = substField ("$cpu_percent_per$".data)
              (some (joinWith ['\n'] ((["10.0".data] : List Str).enum.map
                (fun ip => coreLine envOneCore ip.1 ip.2)))) ("$cpu_percent_per$".data)) :=
  ⟨rfl, per_core_block_shape envOneCore _ _ rfl⟩

/-- C10: when the per-core sample succeeds with an empty core list,
the accumulated block is the empty string and every occurrence of
`$cpu_percent_per$` is replaced by it — the placeholder is removed
from the output (the token-free segments are joined with nothing in
between) rather than left as literal text. -/
theorem empty_core_list_removes_placeholder (env : Env) (text : Str)
    (h : env.cpu_percent_per = some []) :
    perCoreStatus env [] = []
    ∧ get_cpu_usage_per env text
        = joinWith [] (splitOn ("$cpu_percent_per$".data) text) := by
  refine ⟨rfl, ?_⟩
  simp only [get_cpu_usage_per, h, Option.map_some']
  rw [show perCoreStatus env [] = ([] : Str) from rfl]
  exact substField_some_eq_joinWith [] text (by decide)

theorem empty_core_list_removes_placeholder_witness :
    envEmptyCores.cpu_percent_per = some []
    ∧ (perCoreStatus envEmptyCores [] = []
      ∧ get_cpu_usage_per envEmptyCores ("a$cpu_percent_per$b".data)
          = joinWith [] (splitOn ("$cpu_percent_per$".data) ("a$cpu_percent_per$b".data))) :=
  ⟨rfl, empty_core_list_removes_placeholder envEmptyCores _ rfl⟩
/-- C4: `get_size` scales the byte count by repeated division by 1024
with the source's float semantics — the first division rounds the
integer quotient to binary64, the remaining divisions are exact — `d`
divisions in all, with `d = k` except in the overflow band where
`d = 6` and the unit index stays 5; it renders the resulting value to
2 decimal places (ties to even), then a space, the selected unit
prefix out of the six, and the suffix.  In particular
`get_size 0 = "0.00 B"`, `get_size 1024 = "1.00 KB"` and
`get_size (1024 ^ 4) = "1.00 TB"`.  The byte count is kept below
`2 ^ 1024`, within binary64 range: far above that the conversion
overflows, the error is caught, and the empty string is returned. -/
theorem get_size_format_and_values :
    get_size 0 ("B") = "0.00 B"
    ∧ get_size 1024 ("B") = "1.00 KB"
    ∧ get_size (1024 ^ 4) ("B") = "1.00 TB"
    ∧ ∀ b : ℤ, 0 ≤ b → b < 2 ^ 1024 → ∃ k d : ℕ, k ≤ 5 ∧ (d = k ∨ (d = 6 ∧ k = 5))
        ∧ get_size b ("B") = format2 (scaledVal b d) ++ " " ++ unitOfIdx k ++ "B" := by
  refine ⟨get_size_zero, get_size_kib, get_size_tib, ?_⟩
  intro b _h0 _hrange
  rcases lt_or_le b 1024 with h | h
  · refine ⟨0, 0, by norm_num, Or.inl rfl, ?_⟩
    have hs : scaledVal b 0 = (b : ℚ) := by
      unfold scaledVal
      rw [if_pos rfl]
    simp only [get_size, floatVal_small h, hs]
    rfl
  · rcases lt_or_le (fl53 ((b : ℚ) / 1024)) (1024 ^ 5) with h5 | h5
    · obtain ⟨i, hi4, _, _, hE⟩ := tailLoop_band _ h5
      refine ⟨i + 1, i + 1, by omega, Or.inl rfl, ?_⟩
      have hs : scaledVal b (i + 1) = fl53 ((b : ℚ) / 1024) / 1024 ^ i := by
        unfold scaledVal
        rw [if_neg (by omega : ¬ i + 1 = 0)]
        norm_num
      simp only [get_size, floatVal_big (not_lt.2 h), hE, hs]
    · refine ⟨5, 6, by norm_num, Or.inr ⟨rfl, rfl⟩, ?_⟩
      have hs : scaledVal b 6 = fl53 ((b : ℚ) / 1024) / 1024 ^ 5 := by
        unfold scaledVal
        rw [if_neg (by norm_num)]
      simp only [get_size, floatVal_big (not_lt.2 h), tailLoop_top h5, hs]
      rfl

theorem get_size_format_and_values_witness :
    (0 : ℤ) ≤ 123456789 ∧ (123456789 : ℤ) < 2 ^ 1024
    ∧ ∃ k d : ℕ, k ≤ 5 ∧ (d = k ∨ (d = 6 ∧ k = 5))
        ∧ get_size 123456789 ("B") = format2 (scaledVal 123456789 d) ++ " " ++ unitOfIdx k ++ "B" :=
  ⟨by norm_num, by norm_num,
    get_size_format_and_values.2.2.2 123456789 (by norm_num) (by norm_num)⟩

/-- C9 as stated is false at its own cited input: the first float
division rounds the exact quotient `(1024 ^ 6 - 1) / 1024`, which lies
within half an ulp of the binade boundary, up to exactly `1024 ^ 5`;
the loop then divides through to exhaustion and the program prints
`"1.00 PB"` for `1024 ^ 6 - 1`, not the claimed `"1024.00 PB"`. -/
theorem get_size_boundary_counterexample :
    get_size (1024 ^ 6 - 1) ("B") = "1.00 PB"
    ∧ get_size (1024 ^ 6 - 1) ("B") ≠ "1024.00 PB" := by
  refine ⟨get_size_p6m1, ?_⟩
  rw [get_size_p6m1]
  decide

/-- C9 amended: for every byte count at or above `1024 ^ 6` (and below
`2 ^ 1024`, within binary64 range) the loop divides a sixth time while
the label stays `P`: the output is the 2-decimal rendering of the
float value after the six divisions, `fl53 (b / 1024) / 1024 ^ 5`
(which agrees with `b / 1024 ^ 6` to 53 bits), followed by `" PB"`;
in particular `get_size (1024 ^ 6) = "1.00 PB"`, and
`get_size (1024 ^ 6 - 1) = "1.00 PB"` as well, because the first
division already rounds its quotient up to `1024 ^ 5`. -/
theorem get_size_sixth_division :
    (∀ b : ℤ, 1024 ^ 6 ≤ b → b < 2 ^ 1024 →
        get_size b ("B") = format2 (fl53 ((b : ℚ) / 1024) / 1024 ^ 5) ++ " PB")
    ∧ get_size (1024 ^ 6) ("B") = "1.00 PB"
    ∧ get_size (1024 ^ 6 - 1) ("B") = "1.00 PB" := by
  refine ⟨?_, get_size_p6, get_size_p6m1⟩
  intro b hb _hrange
  have h1024 : (1024 : ℤ) ≤ b := le_trans (by norm_num) hb
  have hofl : (1024 : ℚ) ^ 5 ≤ fl53 ((b : ℚ) / 1024) := by
    have hbq : ((1024 : ℚ) ^ 6) ≤ (b : ℚ) := by exact_mod_cast hb
    have hc : ((1024 : ℚ) ^ 5) ≤ (b : ℚ) / 1024 := by
      rw [le_div_iff₀ (by norm_num : (0 : ℚ) < 1024)]
      nlinarith
    calc (1024 : ℚ) ^ 5 = fl53 ((1024 : ℚ) ^ 5) := fl53_pow5.symm
    _ ≤ fl53 ((b : ℚ) / 1024) := fl53_mono (by positivity) hc
  simp only [get_size, floatVal_big (not_lt.2 h1024), tailLoop_top hofl]
  rw [String.append_assoc, String.append_assoc]
  rfl

theorem get_size_sixth_division_witness :
    (1024 : ℤ) ^ 6 ≤ 2 * 1024 ^ 6 ∧ (2 * 1024 ^ 6 : ℤ) < 2 ^ 1024
    ∧ get_size (2 * 1024 ^ 6) ("B")
        = format2 (fl53 (((2 * 1024 ^ 6 : ℤ) : ℚ) / 1024) / 1024 ^ 5) ++ " PB" :=
  ⟨by norm_num, by norm_num,
    get_size_sixth_division.1 _ (by norm_num) (by norm_num)⟩

/-- C5 as stated is false: near the top binade boundary the first
float division rounds `(1024 ^ 6 - 1) / 1024` up to `1024 ^ 5`, so the
larger count `1024 ^ 6 - 1` prints `"1.00 PB"` (denoting `1024 ^ 5`
bytes) while the smaller `1024 ^ 6 - 65` still prints `"1024.00 PB"`
(denoting `1024 ^ 6` bytes): a larger byte count yields a
value-and-unit combination denoting a smaller quantity — and both
inputs lie below `1024 ^ 6`. -/
theorem size_monotonicity_counterexample :
    ((1024 : ℤ) ^ 6 - 65 < 1024 ^ 6 - 1)
    ∧ sizeDenote (1024 ^ 6 - 1) < sizeDenote (1024 ^ 6 - 65) := by
  refine ⟨by norm_num, ?_⟩
  rw [sizeDenote_p6m1, sizeDenote_p6m65]
  norm_num

/-- C5 amended: `get_size` is monotonic for byte counts up to
`1024 ^ 6 - 65`: for all `0 ≤ a < b ≤ 1024 ^ 6 - 65` the
value-and-unit combination printed for `b` never denotes a smaller
byte quantity than the one printed for `a`.  From `1024 ^ 6 - 64`
upward the rounded first quotient already reaches `1024 ^ 5`, the loop
divides a sixth time, and the displayed quantity drops by a factor of
1024. -/
theorem sizeDenote_mono_below_overflow (a b : ℤ)
    (_h0 : 0 ≤ a) (hab : a < b) (hb : b ≤ 1024 ^ 6 - 65) :
    sizeDenote a ≤ sizeDenote b := by
  rcases lt_or_le b 1024 with hb1024 | hb1024
  · rw [sizeDenote_small (by omega), sizeDenote_small hb1024]
    exact_mod_cast hab.le
  · have hBb1 : 1 ≤ fl53 ((b : ℚ) / 1024) := one_le_fl53_div hb1024
    have hBbtop : fl53 ((b : ℚ) / 1024) < 1024 ^ 5 :=
      lt_of_le_of_lt (fl53_div_le_thresh hb1024 hb) (by norm_num)
    obtain ⟨ib, hib4, hiblo, hibhi, hEb⟩ := tailLoop_band _ hBbtop
    have hvb1 : (1 : ℚ) ≤ fl53 ((b : ℚ) / 1024) / 1024 ^ ib := by
      rcases hiblo with rfl | hlo
      · simpa using hBb1
      · rw [le_div_iff₀ (by positivity), one_mul]
        exact hlo
    have hcbq : (100 : ℚ) ≤ (cent (fl53 ((b : ℚ) / 1024) / 1024 ^ ib) : ℚ) := by
      exact_mod_cast cent_lower hvb1
    have hfacb : (0 : ℚ) < 1024 ^ (ib + 1) := by positivity
    rcases lt_or_le a 1024 with ha1024 | ha1024
    · rw [sizeDenote_small ha1024]
      simp only [sizeDenote, floatVal_big (not_lt.2 hb1024), hEb]
      rw [unitFactor_unitOfIdx (ib + 1) (by omega)]
      have haq : ((a : ℚ)) < 1024 := by exact_mod_cast ha1024
      have hfge : (1024 : ℚ) ≤ 1024 ^ (ib + 1) := by
        calc (1024 : ℚ) = 1024 ^ 1 := (pow_one _).symm
        _ ≤ 1024 ^ (ib + 1) := pow_le_pow_right₀ (by norm_num) (by omega)
      linarith [mul_le_mul_of_nonneg_right hcbq hfacb.le]
    · have hBa1 : 1 ≤ fl53 ((a : ℚ) / 1024) := one_le_fl53_div ha1024
      have hBatop : fl53 ((a : ℚ) / 1024) < 1024 ^ 5 :=
        lt_of_le_of_lt (fl53_div_le_thresh ha1024 (by omega)) (by norm_num)
      obtain ⟨ia, hia4, hialo, hiahi, hEa⟩ := tailLoop_band _ hBatop
      have haq : (0 : ℚ) < (a : ℚ) := by
        exact_mod_cast lt_of_lt_of_le (by norm_num : (0 : ℤ) < 1024) ha1024
      have hBab : fl53 ((a : ℚ) / 1024) ≤ fl53 ((b : ℚ) / 1024) := by
        apply fl53_mono (by positivity)
        gcongr
      simp only [sizeDenote, floatVal_big (not_lt.2 ha1024), floatVal_big (not_lt.2 hb1024),
        hEa, hEb]
      rw [unitFactor_unitOfIdx (ia + 1) (by omega), unitFactor_unitOfIdx (ib + 1) (by omega)]
      have hk : ia ≤ ib := by
        by_contra hcon
        push_neg at hcon
        have hlo : (1024 : ℚ) ^ ia ≤ fl53 ((a : ℚ) / 1024) := by
          rcases hialo with rfl | h'
          · omega
          · exact h'
        have hup : (1024 : ℚ) ^ (ib + 1) ≤ 1024 ^ ia :=
          pow_le_pow_right₀ (by norm_num) (by omega)
        linarith
      rcases eq_or_lt_of_le hk with rfl | hlt
      · have hdiv : fl53 ((a : ℚ) / 1024) / 1024 ^ ia ≤ fl53 ((b : ℚ) / 1024) / 1024 ^ ia := by
          gcongr
        have hcq : (cent (fl53 ((a : ℚ) / 1024) / 1024 ^ ia) : ℚ)
            ≤ (cent (fl53 ((b : ℚ) / 1024) / 1024 ^ ia) : ℚ) := by
          exact_mod_cast cent_mono hdiv
        have hF : (0 : ℚ) ≤ 1024 ^ (ia + 1) := by positivity
        linarith [mul_le_mul_of_nonneg_right hcq hF]
      · have hva : fl53 ((a : ℚ) / 1024) / 1024 ^ ia < 1024 := by
          rw [div_lt_iff₀ (by positivity)]
          have hp := pow_succ (1024 : ℚ) ia
          linarith
        have hcaq : (cent (fl53 ((a : ℚ) / 1024) / 1024 ^ ia) : ℚ) ≤ 102400 := by
          exact_mod_cast cent_upper hva
        have hFa : (0 : ℚ) < 1024 ^ (ia + 1) := by positivity
        have step1 : (cent (fl53 ((a : ℚ) / 1024) / 1024 ^ ia) : ℚ) / 100 * 1024 ^ (ia + 1)
            ≤ 1024 ^ (ia + 2) := by
          have hmul := mul_le_mul_of_nonneg_right hcaq hFa.le
          have hp : (1024 : ℚ) ^ (ia + 2) = 1024 * 1024 ^ (ia + 1) := by ring
          linarith
        have step2 : (1024 : ℚ) ^ (ia + 2) ≤ 1024 ^ (ib + 1) :=
          pow_le_pow_right₀ (by norm_num) (by omega)
        have step3 : (1024 : ℚ) ^ (ib + 1)
            ≤ (cent (fl53 ((b : ℚ) / 1024) / 1024 ^ ib) : ℚ) / 100 * 1024 ^ (ib + 1) := by
          have hmul := mul_le_mul_of_nonneg_right hcbq hfacb.le
          linarith
        linarith

theorem sizeDenote_mono_witness :
    (0 : ℤ) ≤ 1 ∧ (1 : ℤ) < 2 ∧ (2 : ℤ) ≤ 1024 ^ 6 - 65 ∧ sizeDenote 1 ≤ sizeDenote 2 :=
  ⟨by norm_num, by norm_num, by norm_num,
    sizeDenote_mono_below_overflow 1 2 (by norm_num) (by norm_num) (by norm_num)⟩

end Status
